import Mathlib

/-!
Verification of the chunked-pipeline specification of this repository.

The repository's own code (`Built In Modules/fs/streams.js`) wires a Node.js
readable stream (`highWaterMark: 5`) to a writable stream, optionally applying
`chunk.toUpperCase()` per chunk; the pipeline engine itself (Source, Sink,
Transform, Driver state machine, finalize) is described only by the
specification.  We embed the per-chunk data flow and the Driver state machine
shallowly: chunks are lists, the machine is a step function on an explicit
state record driven by a script of external events.
-/

namespace NodeStreams

/-- Fuel-indexed worker for `chunksOf`; the fuel only forces structural
recursion and is irrelevant once it is at least the length of the list. -/
def chunksOfF (n : Nat) : Nat → List α → List (List α)
  | _, [] => []
  | 0, _ :: _ => []
  | fuel + 1, a :: l =>
    if n = 0 then [] else (a :: l).take n :: chunksOfF n fuel ((a :: l).drop n)

/-- Modelled from the spec: decomposition of a finite byte source into
successive chunks of `n` bytes each (the last chunk may be shorter), as the
readable stream in `streams.js` produces them with `highWaterMark` sized
reads. -/
def chunksOf (n : Nat) (l : List α) : List (List α) := chunksOfF n l.length l

theorem chunksOfF_fuel_irrel (n : Nat) :
    ∀ (f1 : Nat) (l : List α) (f2 : Nat), l.length ≤ f1 → l.length ≤ f2 →
      chunksOfF n f1 l = chunksOfF n f2 l := by
  intro f1
  induction f1 with
  | zero =>
    intro l f2 h1 _
    have : l = [] := List.eq_nil_of_length_eq_zero (Nat.le_zero.mp h1)
    subst this
    cases f2 <;> rfl
  | succ f ih =>
    intro l f2 h1 h2
    cases l with
    | nil => cases f2 <;> rfl
    | cons a t =>
      cases f2 with
      | zero => simp at h2
      | succ f2 =>
        simp only [chunksOfF]
        by_cases hn : n = 0
        · simp [hn]
        · simp only [hn, if_false]
          have hlen : ((a :: t).drop n).length ≤ f := by
            simp only [List.length_drop, List.length_cons]
            simp only [List.length_cons] at h1
            omega
          have hlen2 : ((a :: t).drop n).length ≤ f2 := by
            simp only [List.length_drop, List.length_cons]
            simp only [List.length_cons] at h2
            omega
          rw [ih ((a :: t).drop n) f2 hlen hlen2]

theorem chunksOf_nil (n : Nat) : chunksOf n ([] : List α) = [] := rfl

theorem chunksOf_zero (l : List α) : chunksOf 0 l = [] := by
  cases l <;> simp [chunksOf, chunksOfF]

theorem chunksOf_cons (n : Nat) (hn : n ≠ 0) (l : List α) (hl : l ≠ []) :
    chunksOf n l = l.take n :: chunksOf n (l.drop n) := by
  cases l with
  | nil => exact absurd rfl hl
  | cons a t =>
    show chunksOfF n (t.length + 1) (a :: t) = _
    simp only [chunksOfF, hn, if_false]
    congr 1
    exact chunksOfF_fuel_irrel n t.length ((a :: t).drop n) ((a :: t).drop n).length
      (by simp only [List.length_drop, List.length_cons]; omega) (Nat.le_refl _)

theorem join_chunksOf (n : Nat) (hn : 0 < n) :
    ∀ l : List α, (chunksOf n l).flatten = l
  | [] => by simp [chunksOf_nil]
  | a :: l => by
    rw [chunksOf_cons n (Nat.pos_iff_ne_zero.mp hn) (a :: l) (by simp)]
    rw [List.flatten_cons, join_chunksOf n hn ((a :: l).drop n)]
    exact List.take_append_drop n (a :: l)
termination_by l => l.length
decreasing_by
  simp only [List.length_drop, List.length_cons]
  omega

theorem length_le_of_mem_chunksOf {n : Nat} {c : List α} :
    ∀ {l : List α}, c ∈ chunksOf n l → c.length ≤ n
  | [], h => by simp [chunksOf_nil] at h
  | a :: l, h => by
    by_cases hn : n = 0
    · subst hn; simp [chunksOf_zero] at h
    · rw [chunksOf_cons n hn (a :: l) (by simp)] at h
      rcases List.mem_cons.mp h with h | h
      · subst h
        simp [List.length_take_le]
      · exact length_le_of_mem_chunksOf h
termination_by l => l.length
decreasing_by
  simp only [List.length_drop, List.length_cons]
  omega

set_option maxRecDepth 4000 in
theorem map_length_chunksOf_example :
    ((chunksOf 100 (List.range 250)).map List.length) = [100, 100, 50] := by
  decide

/-- Modelled from the spec: the Pipeline State of the Driver, one of
Idle, Flowing, Paused, Draining, Completed, Failed. -/
inductive PState where
  | Idle
  | Flowing
  | Paused
  | Draining
  | Completed
  | Failed
deriving DecidableEq, Repr

/-- Modelled from the spec: the external events a running pipeline can
observe at a suspension point: a normal resolution (`ok`, which also stands
for the Sink's drainSignal while Paused), a `ReadError`, a `WriteError`, a
`TransformError`, or a cancellation request. -/
inductive Ev where
  | ok
  | readErr
  | writeErr
  | transformErr
  | cancel
deriving DecidableEq, Repr

/-- Modelled from the spec: the configuration surface
`{chunkSize, highWaterMark}` (the retry policy plays no role in the claims).
The field spelling `highWaterMark` follows `streams.js`. -/
structure Config where
  chunkSize : Nat
  highWaterMark : Nat

/-- Modelled from the spec: a finite byte origin with a monotone read
position (the Source never re-delivers bytes already produced). -/
structure Source (α : Type) where
  data : List α
  pos : Nat

/-- Modelled from the spec: a Sink accumulating the chunks delivered to it,
with a closed flag set by finalize. -/
structure Sink (α : Type) where
  received : List (List α)
  closed : Bool

/-- Modelled from the spec: `accept(chunk)` appends a delivered chunk. -/
def sinkAccept (k : Sink α) (c : List α) : Sink α :=
  { k with received := k.received ++ [c] }

/-- Modelled from the spec: `finalize()` flushes and transitions the Sink to
closed; calling it on an already closed Sink has no effect. -/
def sinkFinalize (k : Sink α) : Sink α :=
  if k.closed then k else { k with closed := true }

/-- Modelled from the spec: the full machine state of one pipeline instance.
`inFlight` holds the chunks pulled from the Source but not yet pushed to the
Sink; `pulledLog` is the history of all chunks pulled from the Source;
`finCalls` counts the Driver's invocations of the Sink's finalize. -/
structure M (α : Type) where
  st : PState
  src : Source α
  sink : Sink α
  inFlight : List (List α)
  pulledLog : List (List α)
  finCalls : Nat

/-- Modelled from the spec: the Driver requests at most `chunkSize` bytes per
pull and never more than the free headroom below `highWaterMark`. -/
def pullSize (cfg : Config) : Nat := min cfg.chunkSize cfg.highWaterMark

/-- Modelled from the spec: terminal pipeline states. -/
def isTerminal : PState → Bool
  | .Completed => true
  | .Failed => true
  | _ => false

/-- Modelled from the spec: failure path taken on `ReadError`, `WriteError`,
`TransformError` or cancellation — the Driver moves to `Failed` and invokes
the Sink's finalize best-effort. -/
def failStep (m : M α) : M α :=
  { m with st := .Failed, sink := sinkFinalize m.sink, finCalls := m.finCalls + 1 }

/-- Modelled from the spec: one step of the Driver's state machine.
In `Flowing` with nothing in flight the Driver pulls the next chunk (or moves
to `Draining` on EndOfData); with a chunk in flight it applies the Transform
`tf` and pushes the result to the Sink, moving to `Paused` when the
saturation oracle `sat` reports `Saturated` for the chunk just accepted.
`Paused` returns to `Flowing` on the drainSignal. `Draining` finalizes the
Sink and completes. Terminal states absorb every event. -/
def step (cfg : Config) (tf : List α → List α) (sat : Nat → Bool)
    (m : M α) (e : Ev) : M α :=
  match m.st with
  | .Completed => m
  | .Failed => m
  | .Idle =>
    match e with
    | .ok => { m with st := .Flowing }
    | _ => failStep m
  | .Paused =>
    match e with
    | .ok => { m with st := .Flowing }
    | _ => failStep m
  | .Draining =>
    match e with
    | .ok => { m with st := .Completed, sink := sinkFinalize m.sink,
                      finCalls := m.finCalls + 1 }
    | _ => failStep m
  | .Flowing =>
    match e with
    | .ok =>
      match m.inFlight with
      | [] =>
        let c := (m.src.data.drop m.src.pos).take (pullSize cfg)
        if c.isEmpty then { m with st := .Draining }
        else { m with src := { m.src with pos := m.src.pos + c.length },
                      inFlight := [c],
                      pulledLog := m.pulledLog ++ [c] }
      | c :: rest =>
        { m with sink := sinkAccept m.sink (tf c),
                 inFlight := rest,
                 st := if sat m.sink.received.length then .Paused else .Flowing }
    | _ => failStep m

/-- Modelled from the spec: the initial machine state of a pipeline over the
finite source `data`. -/
def init (data : List α) : M α :=
  { st := .Idle, src := { data := data, pos := 0 },
    sink := { received := [], closed := false },
    inFlight := [], pulledLog := [], finCalls := 0 }

/-- Modelled from the spec: a pipeline run is the machine folded over a
script of external events. -/
def run (cfg : Config) (tf : List α → List α) (sat : Nat → Bool)
    (data : List α) (evs : List Ev) : M α :=
  evs.foldl (step cfg tf sat) (init data)

/-- Modelled from the spec: the buffered, not-yet-delivered bytes held by the
Driver at an observation point. -/
def bufferedBytes (m : M α) : Nat := (m.inFlight.map List.length).sum

theorem received_sinkFinalize (k : Sink α) : (sinkFinalize k).received = k.received := by
  unfold sinkFinalize
  split <;> rfl

theorem drop_length_take (l : List α) (n : Nat) :
    l.drop (l.take n).length = l.drop n := by
  rw [List.length_take]
  rcases Nat.le_total n l.length with h | h
  · rw [Nat.min_eq_left h]
  · rw [Nat.min_eq_right h, List.drop_length, List.drop_eq_nil_of_le h]

/-- The inductive invariant of the Driver's state machine: the pull log is a
prefix of the chunk decomposition of the source, every pulled or in-flight
chunk respects the pull size, at most one chunk is in flight, the Sink's
received chunks are exactly the transformed pushed chunks, finalize has been
invoked exactly once iff the machine is terminal, and in `Draining` or
`Completed` the source is exhausted with nothing in flight. -/
structure Inv (cfg : Config) (tf : List α → List α) (data : List α) (m : M α) : Prop where
  srcData : m.src.data = data
  log : m.pulledLog ++ chunksOf (pullSize cfg) (data.drop m.src.pos)
      = chunksOf (pullSize cfg) data
  pulledLe : ∀ c ∈ m.pulledLog, c.length ≤ pullSize cfg
  flightLe : ∀ c ∈ m.inFlight, c.length ≤ pullSize cfg
  flightOne : m.inFlight.length ≤ 1
  recv : m.sink.received ++ m.inFlight.map tf = m.pulledLog.map tf
  fin : m.finCalls = (if isTerminal m.st then 1 else 0)
  drained : (m.st = PState.Draining ∨ m.st = PState.Completed) →
    m.inFlight = [] ∧ chunksOf (pullSize cfg) (data.drop m.src.pos) = []

theorem step_terminal (cfg : Config) (tf : List α → List α) (sat : Nat → Bool)
    {m : M α} (e : Ev) (h : isTerminal m.st = true) : step cfg tf sat m e = m := by
  cases hst : m.st <;> simp_all [step, isTerminal]

theorem step_not_ok (cfg : Config) (tf : List α → List α) (sat : Nat → Bool)
    {m : M α} {e : Ev} (hterm : isTerminal m.st = false) (he : e ≠ Ev.ok) :
    step cfg tf sat m e = failStep m := by
  cases e <;> cases hst : m.st <;> simp_all [step, isTerminal]

theorem step_idle_ok (cfg : Config) (tf : List α → List α) (sat : Nat → Bool)
    {m : M α} (hst : m.st = PState.Idle) :
    step cfg tf sat m Ev.ok = { m with st := PState.Flowing } := by
  simp [step, hst]

theorem step_paused_ok (cfg : Config) (tf : List α → List α) (sat : Nat → Bool)
    {m : M α} (hst : m.st = PState.Paused) :
    step cfg tf sat m Ev.ok = { m with st := PState.Flowing } := by
  simp [step, hst]

theorem step_draining_ok (cfg : Config) (tf : List α → List α) (sat : Nat → Bool)
    {m : M α} (hst : m.st = PState.Draining) :
    step cfg tf sat m Ev.ok = { m with st := PState.Completed,
                                       sink := sinkFinalize m.sink,
                                       finCalls := m.finCalls + 1 } := by
  simp [step, hst]

theorem step_flowing_pull_nil (cfg : Config) (tf : List α → List α) (sat : Nat → Bool)
    {m : M α} (hst : m.st = PState.Flowing) (hf : m.inFlight = [])
    (hc : (m.src.data.drop m.src.pos).take (pullSize cfg) = []) :
    step cfg tf sat m Ev.ok = { m with st := PState.Draining } := by
  simp [step, hst, hf, hc]

theorem step_flowing_pull (cfg : Config) (tf : List α → List α) (sat : Nat → Bool)
    {m : M α} (hst : m.st = PState.Flowing) (hf : m.inFlight = [])
    (hne : (m.src.data.drop m.src.pos).take (pullSize cfg) ≠ []) :
    step cfg tf sat m Ev.ok =
      { m with
        src := { m.src with
          pos := m.src.pos + ((m.src.data.drop m.src.pos).take (pullSize cfg)).length },
        inFlight := [(m.src.data.drop m.src.pos).take (pullSize cfg)],
        pulledLog := m.pulledLog ++ [(m.src.data.drop m.src.pos).take (pullSize cfg)] } := by
  simp [step, hst, hf, List.isEmpty_iff, hne]

theorem step_flowing_push (cfg : Config) (tf : List α → List α) (sat : Nat → Bool)
    {m : M α} {c : List α} {rest : List (List α)}
    (hst : m.st = PState.Flowing) (hf : m.inFlight = c :: rest) :
    step cfg tf sat m Ev.ok =
      { m with sink := sinkAccept m.sink (tf c), inFlight := rest,
               st := if sat m.sink.received.length then PState.Paused
                     else PState.Flowing } := by
  simp [step, hst, hf]

theorem inv_failStep {cfg : Config} {tf : List α → List α} {data : List α} {m : M α}
    (h : Inv cfg tf data m) (hterm : isTerminal m.st = false) :
    Inv cfg tf data (failStep m) := by
  refine ⟨h.srcData, h.log, h.pulledLe, h.flightLe, h.flightOne, ?_, ?_, ?_⟩
  · show (sinkFinalize m.sink).received ++ _ = _
    rw [received_sinkFinalize]
    exact h.recv
  · show m.finCalls + 1 = _
    rw [h.fin, hterm]
    simp [failStep, isTerminal]
  · intro hdc
    rcases hdc with hd | hd <;> simp [failStep] at hd

theorem inv_step {cfg : Config} {tf : List α → List α} {sat : Nat → Bool}
    {data : List α} {m : M α} (h : Inv cfg tf data m) (e : Ev) :
    Inv cfg tf data (step cfg tf sat m e) := by
  have hdat := h.srcData
  subst hdat
  cases hterm : isTerminal m.st with
  | true => rw [step_terminal cfg tf sat e hterm]; exact h
  | false =>
    by_cases he : e = Ev.ok
    · subst he
      cases hst : m.st with
      | Completed => rw [hst] at hterm; simp [isTerminal] at hterm
      | Failed => rw [hst] at hterm; simp [isTerminal] at hterm
      | Idle =>
        rw [step_idle_ok cfg tf sat hst]
        refine ⟨h.srcData, h.log, h.pulledLe, h.flightLe, h.flightOne, h.recv, ?_, ?_⟩
        · show m.finCalls = _
          rw [h.fin, hst]
          simp [isTerminal]
        · intro hdc
          rcases hdc with hd | hd <;> simp at hd
      | Paused =>
        rw [step_paused_ok cfg tf sat hst]
        refine ⟨h.srcData, h.log, h.pulledLe, h.flightLe, h.flightOne, h.recv, ?_, ?_⟩
        · show m.finCalls = _
          rw [h.fin, hst]
          simp [isTerminal]
        · intro hdc
          rcases hdc with hd | hd <;> simp at hd
      | Draining =>
        rw [step_draining_ok cfg tf sat hst]
        obtain ⟨hfl, hchunks⟩ := h.drained (Or.inl hst)
        refine ⟨h.srcData, h.log, h.pulledLe, h.flightLe, h.flightOne, ?_, ?_, ?_⟩
        · show (sinkFinalize m.sink).received ++ _ = _
          rw [received_sinkFinalize]
          exact h.recv
        · show m.finCalls + 1 = _
          rw [h.fin, hst]
          simp [isTerminal]
        · intro _
          exact ⟨hfl, hchunks⟩
      | Flowing =>
        cases hf : m.inFlight with
        | cons c rest =>
          rw [step_flowing_push cfg tf sat hst hf]
          refine ⟨h.srcData, h.log, h.pulledLe, ?_, ?_, ?_, ?_, ?_⟩
          · intro x hx
            exact h.flightLe x (by rw [hf]; exact List.mem_cons_of_mem c hx)
          · have hone := h.flightOne
            rw [hf] at hone
            simp only [List.length_cons] at hone
            simp only [List.length_cons] at *
            omega
          · show (m.sink.received ++ [tf c]) ++ rest.map tf = _
            rw [List.append_assoc, List.singleton_append]
            have hr := h.recv
            rw [hf] at hr
            simpa using hr
          · show m.finCalls = _
            rw [h.fin, hst]
            cases sat m.sink.received.length <;> simp [isTerminal]
          · intro hdc
            rcases hdc with hd | hd <;>
              (cases hsat : sat m.sink.received.length <;> simp [hsat] at hd)
        | nil =>
          by_cases hc : (m.src.data.drop m.src.pos).take (pullSize cfg) = []
          · rw [step_flowing_pull_nil cfg tf sat hst hf hc]
            refine ⟨h.srcData, h.log, h.pulledLe, h.flightLe, h.flightOne, h.recv, ?_, ?_⟩
            · show m.finCalls = _
              rw [h.fin, hst]
              simp [isTerminal]
            · intro _
              refine ⟨hf, ?_⟩
              rcases List.take_eq_nil_iff.mp hc with hn | hdrop
              · rw [hn]
                exact chunksOf_zero _
              · rw [hdrop]
                exact chunksOf_nil _
          · rw [step_flowing_pull cfg tf sat hst hf hc]
            have hn0 : pullSize cfg ≠ 0 := by
              intro h0
              exact hc (by rw [h0]; exact List.take_zero _)
            have hdne : m.src.data.drop m.src.pos ≠ [] := by
              intro hD
              exact hc (by rw [hD]; simp)
            have hsplit := chunksOf_cons (pullSize cfg) hn0 (m.src.data.drop m.src.pos) hdne
            have e1 : m.src.data.drop
                  (m.src.pos + ((m.src.data.drop m.src.pos).take (pullSize cfg)).length)
                = (m.src.data.drop m.src.pos).drop
                  ((m.src.data.drop m.src.pos).take (pullSize cfg)).length :=
              (List.drop_drop _ _ _).symm
            have e2 : (m.src.data.drop m.src.pos).drop
                  ((m.src.data.drop m.src.pos).take (pullSize cfg)).length
                = (m.src.data.drop m.src.pos).drop (pullSize cfg) :=
              drop_length_take (m.src.data.drop m.src.pos) (pullSize cfg)
            refine ⟨h.srcData, ?_, ?_, ?_, ?_, ?_, ?_, ?_⟩
            · show (m.pulledLog ++ [_]) ++ chunksOf (pullSize cfg) _ = _
              rw [List.append_assoc, List.singleton_append, e1, e2, ← hsplit]
              exact h.log
            · intro x hx
              rcases List.mem_append.mp hx with hx | hx
              · exact h.pulledLe x hx
              · rw [List.mem_singleton.mp hx]
                exact List.length_take_le _ _
            · intro x hx
              rw [List.mem_singleton.mp hx]
              exact List.length_take_le _ _
            · simp
            · have hr := h.recv
              rw [hf] at hr
              simp only [List.map_nil, List.append_nil] at hr
              show m.sink.received ++ _ = _
              simp [hr]
            · exact h.fin
            · intro hdc
              rcases hdc with hd | hd <;> simp [hst] at hd
    · rw [step_not_ok cfg tf sat hterm he]
      exact inv_failStep h hterm

theorem inv_init (cfg : Config) (tf : List α → List α) (data : List α) :
    Inv cfg tf data (init data) := by
  refine ⟨rfl, by simp [init], by simp [init], by simp [init], by simp [init],
    by simp [init], by simp [init, isTerminal], ?_⟩
  intro hdc
  rcases hdc with hd | hd <;> simp [init] at hd

theorem inv_run (cfg : Config) (tf : List α → List α) (sat : Nat → Bool)
    (data : List α) (evs : List Ev) :
    Inv cfg tf data (run cfg tf sat data evs) := by
  suffices hgen : ∀ (l : List Ev) (m : M α), Inv cfg tf data m →
      Inv cfg tf data (l.foldl (step cfg tf sat) m) from
    hgen evs _ (inv_init cfg tf data)
  intro l
  induction l with
  | nil => intro m hm; exact hm
  | cons e t ih =>
    intro m hm
    exact ih _ (inv_step hm e)

theorem received_of_completed {cfg : Config} {tf : List α → List α} {sat : Nat → Bool}
    {data : List α} {evs : List Ev}
    (hc : (run cfg tf sat data evs).st = PState.Completed) :
    (run cfg tf sat data evs).sink.received = (chunksOf (pullSize cfg) data).map tf ∧
    (run cfg tf sat data evs).inFlight = [] := by
  have h := inv_run cfg tf sat data evs
  obtain ⟨hfl, hchunks⟩ := h.drained (Or.inr hc)
  have hlog := h.log
  rw [hchunks, List.append_nil] at hlog
  have hr := h.recv
  rw [hfl] at hr
  simp only [List.map_nil, List.append_nil] at hr
  rw [hr, hlog]
  exact ⟨rfl, hfl⟩

theorem pulledLog_step_stable {cfg : Config} {tf : List α → List α} {sat : Nat → Bool}
    {m : M α} (e : Ev) (hne : m.inFlight ≠ []) :
    (step cfg tf sat m e).pulledLog = m.pulledLog := by
  cases hfm : m.inFlight with
  | nil => exact absurd hfm hne
  | cons c rest =>
    cases hst : m.st <;> cases e <;> simp [step, hst, hfm, failStep]

/-- Claim C1: for every finite source and an identity Transform, the
concatenation of the chunks delivered to the Sink over a completed pipeline
run equals exactly the byte sequence produced by the Source — no bytes lost,
duplicated, or altered. -/
theorem C1_identity_roundtrip (cfg : Config) (sat : Nat → Bool) (data : List α)
    (evs : List Ev) (h1 : 0 < cfg.chunkSize) (h2 : 0 < cfg.highWaterMark)
    (hc : (run cfg id sat data evs).st = PState.Completed) :
    ((run cfg id sat data evs).sink.received).flatten = data := by
  obtain ⟨hrecv, -⟩ := received_of_completed hc
  rw [hrecv, List.map_id]
  exact join_chunksOf (pullSize cfg) (lt_min h1 h2) data

theorem C1_identity_roundtrip_witness :
    0 < (2 : Nat) ∧
    (run ⟨2, 2⟩ id (fun _ => false) [1, 2, 3] (List.replicate 7 Ev.ok)).st
      = PState.Completed ∧
    ((run ⟨2, 2⟩ id (fun _ => false) [1, 2, 3]
        (List.replicate 7 Ev.ok)).sink.received).flatten = [1, 2, 3] :=
  ⟨by decide, by decide,
   C1_identity_roundtrip ⟨2, 2⟩ (fun _ => false) [1, 2, 3] (List.replicate 7 Ev.ok)
     (by decide) (by decide) (by decide)⟩

/-- Claim C2: at every observation point of every pipeline run, the total
number of buffered, not-yet-delivered chunk bytes is at most the configured
highWaterMark — the Driver suspends pulls from the Source once the watermark
is reached. -/
theorem C2_watermark_bound (cfg : Config) (tf : List α → List α) (sat : Nat → Bool)
    (data : List α) (evs : List Ev) :
    bufferedBytes (run cfg tf sat data evs) ≤ cfg.highWaterMark := by
  have h := inv_run cfg tf sat data evs
  cases hf : (run cfg tf sat data evs).inFlight with
  | nil => simp [bufferedBytes, hf]
  | cons c rest =>
    have hone := h.flightOne
    rw [hf] at hone
    simp only [List.length_cons] at hone
    have hrest : rest = [] := List.length_eq_zero.mp (by omega)
    subst hrest
    have hle := h.flightLe c (by rw [hf]; exact List.mem_cons_self c [])
    have : c.length ≤ cfg.highWaterMark :=
      le_trans hle (Nat.min_le_right _ _)
    simpa [bufferedBytes, hf] using this

/-- Claim C3: in every pipeline run at most one chunk is in flight between
Source and Sink, and the Driver never pulls the next chunk (the pull log
never grows) unless the in-flight buffer is empty, i.e. the previous push
has been acknowledged. -/
theorem C3_one_chunk_in_flight (cfg : Config) (tf : List α → List α)
    (sat : Nat → Bool) (data : List α) (evs : List Ev) :
    (run cfg tf sat data evs).inFlight.length ≤ 1 ∧
    (∀ e : Ev,
      (step cfg tf sat (run cfg tf sat data evs) e).pulledLog
          ≠ (run cfg tf sat data evs).pulledLog →
      (run cfg tf sat data evs).inFlight = []) := by
  constructor
  · exact (inv_run cfg tf sat data evs).flightOne
  · intro e hne
    by_contra hemp
    exact hne (pulledLog_step_stable e hemp)

theorem C3_one_chunk_in_flight_witness :
    (run ⟨2, 2⟩ (id : List Nat → List Nat) (fun _ => false) [1, 2, 3]
      [Ev.ok]).inFlight = [] :=
  (C3_one_chunk_in_flight ⟨2, 2⟩ id (fun _ => false) [1, 2, 3] [Ev.ok]).2
    Ev.ok (by decide)

set_option maxRecDepth 100000 in
/-- Claim C4: every chunk pulled through the pipeline has length at most the
configured chunkSize; and a 250-byte source of values 0..249 with
chunkSize = 100 delivers exactly 3 chunks of sizes 100, 100, 50 in order to
the Sink, totalling the whole 250 bytes, over a completed run. -/
theorem C4_chunk_size (cfg : Config) (tf : List α → List α) (sat : Nat → Bool)
    (data : List α) (evs : List Ev) :
    (∀ c ∈ (run cfg tf sat data evs).pulledLog, c.length ≤ cfg.chunkSize) ∧
    ((run ⟨100, 100⟩ (id : List Nat → List Nat) (fun _ => false) (List.range 250)
        (List.replicate 9 Ev.ok)).sink.received.map List.length = [100, 100, 50] ∧
     (run ⟨100, 100⟩ (id : List Nat → List Nat) (fun _ => false) (List.range 250)
        (List.replicate 9 Ev.ok)).sink.received.flatten = List.range 250 ∧
     (run ⟨100, 100⟩ (id : List Nat → List Nat) (fun _ => false) (List.range 250)
        (List.replicate 9 Ev.ok)).st = PState.Completed) := by
  constructor
  · intro c hcmem
    exact le_trans ((inv_run cfg tf sat data evs).pulledLe c hcmem)
      (Nat.min_le_left _ _)
  · refine ⟨by decide, by decide, by decide⟩

theorem C4_chunk_size_witness :
    ([1, 2] : List Nat) ∈ (run ⟨2, 2⟩ (id : List Nat → List Nat) (fun _ => false)
        [1, 2, 3] (List.replicate 3 Ev.ok)).pulledLog ∧
    ([1, 2] : List Nat).length ≤ (2 : Nat) :=
  ⟨by decide,
   (C4_chunk_size ⟨2, 2⟩ id (fun _ => false) [1, 2, 3] (List.replicate 3 Ev.ok)).1
     [1, 2] (by decide)⟩

/-- Claim C5: chunks are delivered to the Sink in exactly the order the
Source produced them and the Transform maps input chunk N to output chunk N:
at every observation point the Sink's received list extended by the
transformed in-flight chunks is precisely the transform mapped over the pull
log. -/
theorem C5_ordering (cfg : Config) (tf : List α → List α) (sat : Nat → Bool)
    (data : List α) (evs : List Ev) :
    (run cfg tf sat data evs).sink.received
        ++ ((run cfg tf sat data evs).inFlight.map tf)
      = ((run cfg tf sat data evs).pulledLog).map tf :=
  (inv_run cfg tf sat data evs).recv

/-- Claim C6: on every exit path of a pipeline run the Driver attempts the
Sink's finalize exactly once — the finalize count is 1 exactly in the
terminal states and 0 before; in particular cancelling a non-terminal
(mid-flow) run yields exactly one finalize call and the `Failed` state. -/
theorem C6_finalize_once (cfg : Config) (tf : List α → List α) (sat : Nat → Bool)
    (data : List α) (evs : List Ev) :
    ((run cfg tf sat data evs).finCalls
        = (if isTerminal (run cfg tf sat data evs).st then 1 else 0)) ∧
    (isTerminal (run cfg tf sat data evs).st = false →
      (run cfg tf sat data (evs ++ [Ev.cancel])).finCalls = 1 ∧
      (run cfg tf sat data (evs ++ [Ev.cancel])).st = PState.Failed) := by
  constructor
  · exact (inv_run cfg tf sat data evs).fin
  · intro hterm
    have hrun : run cfg tf sat data (evs ++ [Ev.cancel])
        = step cfg tf sat (run cfg tf sat data evs) Ev.cancel := by
      simp [run, List.foldl_append]
    have hcan : (Ev.cancel : Ev) ≠ Ev.ok := by decide
    rw [hrun, step_not_ok cfg tf sat hterm hcan]
    constructor
    · show (run cfg tf sat data evs).finCalls + 1 = 1
      rw [(inv_run cfg tf sat data evs).fin, hterm]
      simp
    · rfl

theorem C6_finalize_once_witness :
    (run ⟨2, 2⟩ (id : List Nat → List Nat) (fun _ => false) [1, 2, 3]
        ([Ev.ok, Ev.ok] ++ [Ev.cancel])).finCalls = 1 ∧
    (run ⟨2, 2⟩ (id : List Nat → List Nat) (fun _ => false) [1, 2, 3]
        ([Ev.ok, Ev.ok] ++ [Ev.cancel])).st = PState.Failed :=
  (C6_finalize_once ⟨2, 2⟩ id (fun _ => false) [1, 2, 3] [Ev.ok, Ev.ok]).2
    (by decide)

/-- Claim C7: the Driver's transitions follow the listed state machine: in
`Flowing` a push whose saturation check returns `Saturated` moves to
`Paused`; `Paused` moves back to `Flowing` exactly on the drainSignal; and a
throttled run (any saturation oracle) that completes produces output
identical to any other completed run of the same pipeline, in particular the
unthrottled one. -/
theorem C7_state_machine (cfg : Config) (tf : List α → List α) (sat : Nat → Bool)
    (data : List α) :
    (∀ (m : M α) (c : List α) (rest : List (List α)),
        m.st = PState.Flowing → m.inFlight = c :: rest →
        sat m.sink.received.length = true →
        (step cfg tf sat m Ev.ok).st = PState.Paused) ∧
    (∀ m : M α, m.st = PState.Paused →
        (step cfg tf sat m Ev.ok).st = PState.Flowing) ∧
    (∀ (m : M α) (e : Ev), m.st = PState.Paused →
        (step cfg tf sat m e).st = PState.Flowing → e = Ev.ok) ∧
    (∀ (sat1 sat2 : Nat → Bool) (evs1 evs2 : List Ev),
        (run cfg tf sat1 data evs1).st = PState.Completed →
        (run cfg tf sat2 data evs2).st = PState.Completed →
        (run cfg tf sat1 data evs1).sink.received
          = (run cfg tf sat2 data evs2).sink.received) := by
  refine ⟨?_, ?_, ?_, ?_⟩
  · intro m c rest hst hf hsat
    rw [step_flowing_push cfg tf sat hst hf]
    simp [hsat]
  · intro m hst
    rw [step_paused_ok cfg tf sat hst]
  · intro m e hst hfl
    by_contra hne
    rw [step_not_ok cfg tf sat (by rw [hst]; rfl) hne] at hfl
    simp [failStep] at hfl
  · intro sat1 sat2 evs1 evs2 h1 h2
    rw [(received_of_completed h1).1, (received_of_completed h2).1]

theorem C7_state_machine_witness :
    (step ⟨2, 2⟩ (id : List Nat → List Nat) (fun _ => true)
        { st := PState.Flowing, src := { data := [], pos := 0 },
          sink := { received := [], closed := false },
          inFlight := [[1]], pulledLog := [[1]], finCalls := 0 } Ev.ok).st
      = PState.Paused ∧
    (step ⟨2, 2⟩ (id : List Nat → List Nat) (fun _ => true)
        { st := PState.Paused, src := { data := [], pos := 0 },
          sink := { received := [], closed := false },
          inFlight := [], pulledLog := [], finCalls := 0 } Ev.ok).st
      = PState.Flowing ∧
    (run ⟨2, 2⟩ (id : List Nat → List Nat) (fun _ => false) [1, 2, 3]
        (List.replicate 7 Ev.ok)).sink.received
      = (run ⟨2, 2⟩ (id : List Nat → List Nat) (fun n => n == 0) [1, 2, 3]
        (List.replicate 8 Ev.ok)).sink.received :=
  ⟨(C7_state_machine ⟨2, 2⟩ id (fun _ => true) []).1 _ [1] [] rfl rfl rfl,
   (C7_state_machine ⟨2, 2⟩ id (fun _ => true) []).2.1 _ rfl,
   (C7_state_machine ⟨2, 2⟩ id (fun _ => false) [1, 2, 3]).2.2.2
     (fun _ => false) (fun n => n == 0) (List.replicate 7 Ev.ok)
     (List.replicate 8 Ev.ok) (by decide) (by decide)⟩

/-- Claim C8: the Sink's finalize is idempotent — for every Sink state,
calling finalize twice yields the same Sink state and observable effects as
calling it once. -/
theorem C8_finalize_idempotent (k : Sink α) :
    sinkFinalize (sinkFinalize k) = sinkFinalize k := by
  cases hk : k.closed <;> simp [sinkFinalize, hk]

/-- From the source (`streams.js`, transform-streams section): JavaScript's
`String.prototype.toUpperCase` converts a string character by character
through the Unicode default uppercase mapping `u`, which is context-free and
may expand one character into several; the conversion of a string is the
concatenation of the per-character images. -/
def jsToUpperCase (u : Char → List Char) (s : List Char) : List Char :=
  (s.map u).flatten

/-- From the source: `let upperCaseChunk = chunk.toUpperCase();` — the
per-chunk Transform applied inside the data handler. -/
def upperCaseChunk (u : Char → List Char) (chunk : List Char) : List Char :=
  jsToUpperCase u chunk

theorem jsToUpperCase_append (u : Char → List Char) (a b : List Char) :
    jsToUpperCase u (a ++ b) = jsToUpperCase u a ++ jsToUpperCase u b := by
  simp [jsToUpperCase]

theorem flatten_map_upperCaseChunk (u : Char → List Char) (L : List (List Char)) :
    (L.map (upperCaseChunk u)).flatten = jsToUpperCase u L.flatten := by
  induction L with
  | nil => simp [jsToUpperCase]
  | cons a t ih =>
    simp only [List.map_cons, List.flatten_cons, ih, upperCaseChunk]
    rw [← jsToUpperCase_append]

/-- Claim C9: for the uppercase transform pipeline, applying toUpperCase per
chunk commutes with concatenation — over any completed run, the
concatenation of the chunks written to the destination equals the uppercase
conversion of the whole source content. -/
theorem C9_uppercase_pipeline (u : Char → List Char) (cfg : Config)
    (sat : Nat → Bool) (data : List Char) (evs : List Ev)
    (h1 : 0 < cfg.chunkSize) (h2 : 0 < cfg.highWaterMark)
    (hc : (run cfg (upperCaseChunk u) sat data evs).st = PState.Completed) :
    ((run cfg (upperCaseChunk u) sat data evs).sink.received).flatten
      = jsToUpperCase u data := by
  obtain ⟨hrecv, -⟩ := received_of_completed hc
  rw [hrecv, flatten_map_upperCaseChunk, join_chunksOf (pullSize cfg) (lt_min h1 h2) data]

/-- A two-character sample source for the uppercase pipeline. -/
def hiChars : List Char := ['h', 'i']

theorem C9_uppercase_pipeline_witness :
    (run ⟨2, 2⟩ (upperCaseChunk (fun c => [c.toUpper])) (fun _ => false)
        hiChars (List.replicate 5 Ev.ok)).st = PState.Completed ∧
    ((run ⟨2, 2⟩ (upperCaseChunk (fun c => [c.toUpper])) (fun _ => false)
        hiChars (List.replicate 5 Ev.ok)).sink.received).flatten
      = jsToUpperCase (fun c => [c.toUpper]) hiChars :=
  ⟨by decide,
   C9_uppercase_pipeline (fun c => [c.toUpper]) ⟨2, 2⟩ (fun _ => false)
     hiChars (List.replicate 5 Ev.ok) (by decide) (by decide) (by decide)⟩

/-- Modelled from the spec and the Node.js Buffer semantics exercised by
`buffer.js` (its comments record that a Buffer's size cannot change once
defined): a Buffer is a fixed-capacity byte holder; `Buffer.from("ab")`
allocates 2 bytes. -/
structure JSBuffer where
  data : List Char

/-- Modelled from the spec: `Buffer.from(string)` fills a new Buffer with the
string's characters (one byte per character in the source's examples). -/
def bufferFrom (s : String) : JSBuffer := ⟨s.data⟩

/-- Modelled from the spec: `buf.write(string)` copies the string into the
Buffer from offset 0, truncating to the Buffer's fixed capacity; bytes past
the written region keep their previous contents and the Buffer's length
never changes. -/
def JSBuffer.write (b : JSBuffer) (s : List Char) : JSBuffer :=
  ⟨s.take (min s.length b.data.length) ++ b.data.drop (min s.length b.data.length)⟩

/-- From the source: `let buff1 = Buffer.from("ab");`. -/
def buff1 : JSBuffer := bufferFrom "ab"

/-- Claim C10: writing a string longer than a Buffer's capacity stores only
the first capacity bytes and leaves the Buffer's length unchanged — for the
2-byte buffer created from "ab", write("hello") stores exactly "he" and the
length remains 2. -/
theorem C10_buffer_write :
    (∀ (b : JSBuffer) (s : List Char), (b.write s).data.length = b.data.length) ∧
    (buff1.write "hello".data).data = "he".data ∧
    (buff1.write "hello".data).data.length = 2 := by
  refine ⟨?_, by decide, by decide⟩
  intro b s
  simp only [JSBuffer.write, List.length_append, List.length_take, List.length_drop]
  omega

end NodeStreams
